import Mathlib

/-!
Verification of the embedding cache and similarity/consistency scoring core of
the OpenCLIP microservice (files `production_server.py` and `clip_server.py`,
which share the scoring and cache logic verbatim).

Modelling conventions:
* Python/numpy floating-point values are idealised as rationals (`ℚ`); the
  Euclidean-norm divisions performed by the similarity code are kept exact by
  representing each cosine value as a pair `(num, denSq)` standing for the
  real number `num / Real.sqrt denSq` (see `CosVal`).
* numpy float32 payloads stored in the durable (Redis) tier are modelled at
  the bit level: a float32 is a 32-bit word (`ℕ` below `2 ^ 32`) and the
  serialised form is its four little-endian bytes.
* The durable tier is an external collaborator; each call's outcome (value,
  absence, or transport error) is passed in explicitly, and the `try/except`
  wrappers of `_get_from_cache` / `_store_in_cache` are modelled by running
  the translated try-block in `Except` and recovering at the top.
-/

/-- Dot product of two equal-length vectors, `np.dot` on 1-D arrays.
`np.dot` raises a `ValueError` on mismatched lengths; this total version is
only ever applied under an equal-length hypothesis (the route-level embedding
`calculate_similarity` checks the lengths explicitly and maps the raised
exception to the HTTP error the handler produces). -/
def dot (a b : List ℚ) : ℚ :=
  (List.zipWith (fun x y => x * y) a b).sum

/-- Squared Euclidean norm of a vector: `np.linalg.norm(v) ** 2`. -/
def normSq (v : List ℚ) : ℚ := dot v v

/-- The verdict record returned by the `/character/consistency` endpoint
(`consistency_score`, `image_similarities`, `text_similarity`, `passed`,
`threshold`). -/
structure ConsistencyVerdict where
  score : ℚ
  image_similarities : List ℚ
  text_similarity : Option ℚ
  passed : Bool
  threshold : ℚ
  deriving Repr, DecidableEq

/-- The scoring logic of `check_character_consistency` (production_server.py
lines 571-605, identically clip_server.py lines 591-624), applied to the
embeddings the encoder produced: raw dot products against each reference in
order, `avg = np.mean(sims) if sims else 0`, an optional text blend with the
fixed weights `0.7` / `0.3`, and the non-strict `>=` threshold test. -/
def check_character_consistency (gen : List ℚ) (refs : List (List ℚ))
    (txt : Option (List ℚ)) (threshold : ℚ) : ConsistencyVerdict :=
  let image_similarities := refs.map (fun r => dot gen r)
  let text_similarity := txt.map (fun t => dot gen t)
  let avg : ℚ :=
    if image_similarities.isEmpty then 0
    else image_similarities.sum / image_similarities.length
  let score : ℚ :=
    match text_similarity with
    | none => avg
    | some ts => 7 / 10 * avg + 3 / 10 * ts
  { score := score
    image_similarities := image_similarities
    text_similarity := text_similarity
    passed := decide (threshold ≤ score)
    threshold := threshold }

/-- Exact representation of a similarity value produced by the servers'
normalise-then-dot code path: the real number `num / Real.sqrt denSq`.
`calculate_similarity` and `find_most_similar` compute
`np.dot(a / ‖a‖, b / ‖b‖) = np.dot(a, b) / (‖a‖ * ‖b‖)`, which is represented
exactly by `num = np.dot(a, b)` and `denSq = ‖a‖² * ‖b‖²`. -/
structure CosVal where
  num : ℚ
  denSq : ℚ
  deriving Repr, DecidableEq

/-- Decidable comparison of two represented values `x.num / √x.denSq ≤
y.num / √y.denSq` (meaningful when both `denSq` are positive), by sign
analysis and cross-multiplied squares. -/
def CosVal.le (x y : CosVal) : Bool :=
  if x.num < 0 then
    if y.num < 0 then decide (y.num ^ 2 * x.denSq ≤ x.num ^ 2 * y.denSq)
    else true
  else
    if y.num < 0 then false
    else decide (x.num ^ 2 * y.denSq ≤ y.num ^ 2 * x.denSq)

/-- Strict version of `CosVal.le`. -/
def CosVal.lt (x y : CosVal) : Bool := CosVal.le x y && !(CosVal.le y x)

/-- One entry of the `/search` result list: the candidate's original index and
its similarity score (the dicts `{'index': i, 'similarity': s}` built by
`find_most_similar` / `search_similar`). -/
structure SimEntry where
  index : ℕ
  sim : CosVal
  deriving Repr, DecidableEq

/-- Stable insertion of a later entry into a descending-sorted list: the new
entry passes over entries with strictly larger score and stops in front of the
first entry whose score is not strictly larger, so earlier entries win ties. -/
def insEntry (x : SimEntry) : List SimEntry → List SimEntry
  | [] => [x]
  | y :: ys => if CosVal.lt x.sim y.sim then y :: insEntry x ys else x :: y :: ys

/-- Stable descending sort by similarity, the observable behaviour of Python's
stable `similarities.sort(key=lambda r: r['similarity'], reverse=True)`. -/
def sortDesc : List SimEntry → List SimEntry
  | [] => []
  | x :: xs => insEntry x (sortDesc xs)

/-- Index-value pairs starting at `n`: Python's `enumerate` in the candidate
loop of `find_most_similar`. -/
def enumFrom {α : Type} (n : ℕ) : List α → List (ℕ × α)
  | [] => []
  | c :: cs => (n, c) :: enumFrom (n + 1) cs

/-- `find_most_similar(query, candidates, top_k)` (clip_server.py lines
422-444; identically the body of the `/search` handler `search_similar` in
production_server.py lines 632-655): normalise the query once, normalise each
candidate, take dot products (value `dot q c / (‖q‖ ‖c‖)`, an exact `CosVal`),
stable-sort descending by similarity, and slice off the first `top_k`.
`List.take` is Python's `[:top_k]` for a non-negative `top_k`; no clamping of
`top_k` happens here (production_server instead rejects `top_k` outside
`[1, 100]` in pydantic validation before this code runs). Zero-norm inputs
make the Python code produce NaN scores and are outside this representation;
the theorems below assume non-zero norms. -/
def find_most_similar (query : List ℚ) (cands : List (List ℚ)) (topK : ℕ) :
    List SimEntry :=
  let sims := (enumFrom 0 cands).map
    (fun p => { index := p.1,
                sim := { num := dot query p.2, denSq := normSq query * normSq p.2 } })
  (sortDesc sims).take topK

/-- The ordering invariant of a sorted result list: any earlier entry has a
score at least as large, and if the scores tie then its original index is
strictly smaller. -/
def EntryOrd (a b : SimEntry) : Prop :=
  CosVal.le b.sim a.sim = true ∧ (CosVal.le a.sim b.sim = true → a.index < b.index)

/-- Observable outcome of the `/similarity` endpoint: a finite similarity
value (represented exactly), a NaN result (serialised as a success response),
or an HTTP error with its status code. -/
inductive SimOutcome
  | ok (v : CosVal)
  | okNaN
  | httpError (status : ℕ)
  deriving Repr, DecidableEq

/-- `calculate_similarity` (production_server.py lines 611-629 as the
`/similarity` handler; clip_server.py lines 405-420 plus its route at lines
528-547): convert both inputs to arrays, divide each by its Euclidean norm —
numpy produces NaN components (0/0) for a nonempty zero-norm vector instead
of raising — then `np.dot`, which raises `ValueError` on mismatched lengths.
Both handlers catch every exception and surface it with HTTP status 500. A
finite result is the exact value `dot(a,b) / (‖a‖·‖b‖)`. For two empty
inputs (accepted only by production_server's validation) the represented
denominator is `0` and the `CosVal` is degenerate; the theorems below never
rely on that corner. -/
def calculate_similarity (e1 e2 : List ℚ) : SimOutcome :=
  if e1.length = e2.length then
    if (e1 ≠ [] ∧ normSq e1 = 0) ∨ (e2 ≠ [] ∧ normSq e2 = 0) then SimOutcome.okNaN
    else SimOutcome.ok { num := dot e1 e2, denSq := normSq e1 * normSq e2 }
  else SimOutcome.httpError 500

/-- Four little-endian bytes of one 32-bit word: the fixed byte order in
which `ndarray.tobytes()` lays out a float32 component (components are
modelled as their 32-bit patterns, on which `astype(np.float32)` is the
identity). -/
def wordBytes (w : ℕ) : List ℕ :=
  [w % 256, w / 256 % 256, w / 65536 % 256, w / 16777216 % 256]

/-- `embedding.astype(np.float32).tobytes()`: concatenation of the
components' four-byte encodings. -/
def serialize : List ℕ → List ℕ
  | [] => []
  | w :: ws => wordBytes w ++ serialize ws

/-- `np.frombuffer(cached, dtype=np.float32)`: rebuild one word per four
little-endian bytes. (`np.frombuffer` raises on a trailing partial chunk;
`serialize` output never has one.) -/
def deserialize : List ℕ → List ℕ
  | b0 :: b1 :: b2 :: b3 :: rest =>
      (b0 + 256 * b1 + 65536 * b2 + 16777216 * b3) :: deserialize rest
  | _ => []

/-- Static configuration of the cache: `self.cache_enabled`, whether
`self.redis_client` is non-`None`, `self.cache_ttl`, and
`self.max_memory_cache_size`. -/
structure CacheConfig where
  cacheEnabled : Bool
  redisConfigured : Bool
  cacheTtl : ℚ
  maxMemCacheSize : ℕ
  deriving Repr, DecidableEq

/-- The fast tier `self.memory_cache`: a Python dict from cache key to the
pair `(embedding, timestamp)`, modelled as an association list (dict
assignment overwrites in place, `del` removes the key's entry). -/
structure CacheState where
  memoryCache : List (String × List ℕ × ℚ)
  deriving Repr, DecidableEq

/-- Dict membership plus indexing: `self.memory_cache[key]`. -/
def memLookup (key : String) : List (String × List ℕ × ℚ) → Option (List ℕ × ℚ)
  | [] => none
  | e :: es => if e.1 = key then some e.2 else memLookup key es

/-- Dict deletion: `del self.memory_cache[key]`. -/
def memErase (key : String) : List (String × List ℕ × ℚ) → List (String × List ℕ × ℚ)
  | [] => []
  | e :: es => if e.1 = key then es else e :: memErase key es

/-- Dict assignment: `self.memory_cache[key] = value` (overwrite in place or
append). -/
def memInsert (key : String) (v : List ℕ × ℚ) :
    List (String × List ℕ × ℚ) → List (String × List ℕ × ℚ)
  | [] => [(key, v)]
  | e :: es => if e.1 = key then (key, v) :: es else e :: memInsert key v es

/-- Outcome of one durable-tier `redis.get(key)` call: a value, absence, or a
raised transport/serialization exception. -/
inductive RedisResp
  | ok (v : Option (List ℕ))
  | err
  deriving Repr, DecidableEq

/-- Outcome of one durable-tier `redis.setex(...)` call. -/
inductive RedisWResp
  | ok
  | err
  deriving Repr, DecidableEq

/-- Arguments of one performed durable-tier write
`setex(key, ttl, bytes)`. -/
structure DurableWrite where
  key : String
  ttl : ℚ
  bytes : List ℕ
  deriving Repr, DecidableEq

/-- The memory-cache branch of `_get_from_cache`: membership test, local TTL
check `time.time() - timestamp < self.cache_ttl`, and `del` of an expired
entry. -/
def memGetStep (cfg : CacheConfig) (st : CacheState) (now : ℚ) (key : String) :
    Option (List ℕ) × CacheState :=
  match memLookup key st.memoryCache with
  | some (emb, ts) =>
      if now - ts < cfg.cacheTtl then (some emb, st)
      else (none, { memoryCache := memErase key st.memoryCache })
  | none => (none, st)

/-- The try-block of `_get_from_cache`: Redis first — `if cached:` is falsy
both for absence and for an empty byte string — then the memory cache. A
raised redis exception aborts the block. -/
def getFromCacheBody (cfg : CacheConfig) (st : CacheState) (now : ℚ)
    (redis : RedisResp) (key : String) :
    Except Unit (Option (List ℕ) × CacheState) :=
  if cfg.redisConfigured then
    match redis with
    | RedisResp.err => Except.error ()
    | RedisResp.ok (some bs) =>
        if bs = [] then Except.ok (memGetStep cfg st now key)
        else Except.ok (some (deserialize bs), st)
    | RedisResp.ok none => Except.ok (memGetStep cfg st now key)
  else Except.ok (memGetStep cfg st now key)

/-- `_get_from_cache` (production_server.py lines 193-219; identical in
clip_server.py lines 192-218): `None` with caching disabled, otherwise the
try-block with any exception recovered into a cache miss that leaves the
memory cache untouched. The returned pair is (result, fast tier after the
call). -/
def getFromCache (cfg : CacheConfig) (st : CacheState) (now : ℚ)
    (redis : RedisResp) (key : String) : Option (List ℕ) × CacheState :=
  if cfg.cacheEnabled then
    match getFromCacheBody cfg st now redis key with
    | Except.ok r => r
    | Except.error _ => (none, st)
  else (none, st)

/-- The memory-cache branch of `_store_in_cache`: admission only while
`len(self.memory_cache) < self.max_memory_cache_size`, otherwise the write
is silently dropped (no eviction). -/
def memPutStep (cfg : CacheConfig) (st : CacheState) (now : ℚ) (key : String)
    (emb : List ℕ) : CacheState :=
  if st.memoryCache.length < cfg.maxMemCacheSize then
    { memoryCache := memInsert key (emb, now) st.memoryCache }
  else st

/-- The try-block of `_store_in_cache`: the durable `setex` write first (its
exception aborts the block), then the memory-cache admission. -/
def storeInCacheBody (cfg : CacheConfig) (st : CacheState) (now : ℚ)
    (redisW : RedisWResp) (key : String) (emb : List ℕ) :
    Except Unit (CacheState × Option DurableWrite) :=
  if cfg.redisConfigured then
    match redisW with
    | RedisWResp.err => Except.error ()
    | RedisWResp.ok =>
        Except.ok (memPutStep cfg st now key emb,
          some { key := key, ttl := cfg.cacheTtl, bytes := serialize emb })
  else Except.ok (memPutStep cfg st now key emb, none)

/-- `_store_in_cache` (production_server.py lines 221-240; identical in
clip_server.py lines 220-239): a no-op with caching disabled, otherwise the
try-block with any exception recovered into a no-op. The returned pair is
(fast tier after the call, the durable write performed, if any). -/
def storeInCache (cfg : CacheConfig) (st : CacheState) (now : ℚ)
    (redisW : RedisWResp) (key : String) (emb : List ℕ) :
    CacheState × Option DurableWrite :=
  if cfg.cacheEnabled then
    match storeInCacheBody cfg st now redisW key emb with
    | Except.ok r => r
    | Except.error _ => (st, none)
  else (st, none)

/-- One cache operation together with the durable tier's behaviour on it. -/
inductive CacheOp
  | get (key : String) (now : ℚ) (redis : RedisResp)
  | put (key : String) (emb : List ℕ) (now : ℚ) (redisW : RedisWResp)

/-- The fast-tier state after one cache operation. -/
def stepCache (cfg : CacheConfig) (st : CacheState) : CacheOp → CacheState
  | CacheOp.get key now redis => (getFromCache cfg st now redis key).2
  | CacheOp.put key emb now redisW => (storeInCache cfg st now redisW key emb).1

/-- The fast-tier state after a sequence of cache operations. -/
def runCache (cfg : CacheConfig) (st : CacheState) (ops : List CacheOp) :
    CacheState :=
  ops.foldl (stepCache cfg) st

/-- Environment of collaborator behaviours during one `/embed/batch` request:
the image Embedding Oracle, the md5 hex digest used by `_get_cache_key`, the
clock, and the durable tier's per-key responses (the durable store is taken
as fixed for the duration of one batch). -/
structure BatchEnv where
  oracleImage : String → List ℕ
  md5hex : String → String
  now : ℚ
  redisG : String → RedisResp
  redisP : String → RedisWResp

/-- One item of a batch request: a bare string, or an object carrying `text`
/ `image` fields and an optional `cache_key` (a Python-falsy key — absent or
empty — is `none`). -/
inductive BItem
  | plain (s : String)
  | obj (textField imageField : String) (cacheKey : Option String)

/-- `item if isinstance(item, str) else item.get('text', '')`. -/
def BItem.textContent : BItem → String
  | BItem.plain s => s
  | BItem.obj t _ _ => t

/-- `item if isinstance(item, str) else item.get('image', '')`. -/
def BItem.imageContent : BItem → String
  | BItem.plain s => s
  | BItem.obj _ i _ => i

/-- `item.get('cache_key') if isinstance(item, dict) else None`. -/
def BItem.itemKey : BItem → Option String
  | BItem.plain _ => none
  | BItem.obj _ _ k => k

/-- The key under which `encode_image` works: the explicit `cache_key` when
given, else the derived `"image:" + md5(image_data)` of `_get_cache_key`;
none when caching is disabled. -/
def effectiveKey (env : BatchEnv) (cfg : CacheConfig) (imageData : String)
    (cacheKey : Option String) : Option String :=
  if cfg.cacheEnabled then
    match cacheKey with
    | some k => some k
    | none => some ("image:" ++ env.md5hex imageData)
  else none

/-- The cache interaction of `encode_image(image_data, cache_key)` for a
base64-string payload (production_server.py lines 318-382): cache lookup
under the effective key; on a hit the cached embedding is returned as-is; on
a miss the Oracle encodes the image and the result goes through
`_store_in_cache`. Image decode/validation failures (HTTP 400) are outside
this model: per C9's assumption the Oracle returns one embedding per
input. -/
def encode_image (env : BatchEnv) (cfg : CacheConfig) (st : CacheState)
    (imageData : String) (cacheKey : Option String) : List ℕ × CacheState :=
  match effectiveKey env cfg imageData cacheKey with
  | some key =>
      match getFromCache cfg st env.now (env.redisG key) key with
      | (some cached, st2) => (cached, st2)
      | (none, st2) =>
          let emb := env.oracleImage imageData
          (emb, (storeInCache cfg st2 env.now (env.redisP key) key emb).1)
  | none => (env.oracleImage imageData, st)

/-- The image branch of `batch_encode`: the sequential loop accumulating
per-item `encode_image` results in input order while threading the shared
fast tier. -/
def batch_encode_image (env : BatchEnv) (cfg : CacheConfig) :
    CacheState → List BItem → List (List ℕ) × CacheState
  | st, [] => ([], st)
  | st, it :: rest =>
      let r := encode_image env cfg st it.imageContent it.itemKey
      let rr := batch_encode_image env cfg r.2 rest
      (r.1 :: rr.1, rr.2)

/-- `batch_encode(items, batch_type)` (production_server.py lines 384-398):
"text" submits all items' text fields as one batched `encode_text` call (a
list input takes no cache interaction inside `encode_text`); "image" runs
the sequential per-item loop; any other batch type raises
HTTPException(400). `oracleText` is the batched text Oracle. -/
def batch_encode (env : BatchEnv) (oracleText : List String → List (List ℕ))
    (cfg : CacheConfig) (st : CacheState) (items : List BItem)
    (batchType : String) : Except ℕ (List (List ℕ) × CacheState) :=
  if batchType = "text" then
    Except.ok (oracleText (items.map BItem.textContent), st)
  else if batchType = "image" then
    Except.ok (batch_encode_image env cfg st items)
  else Except.error 400

/-- No duplicate keys: the invariant of a Python dict modelled as an
association list. -/
def KeysNodup (l : List (String × List ℕ × ℚ)) : Prop :=
  l.Pairwise (fun a b => a.1 ≠ b.1)

/-- C1: the consistency verdict's score is the average image similarity when
no text embedding is supplied and `0.7 * avg + 0.3 * text_similarity` when one
is supplied; the average is `0` (a value, not an error) on an empty reference
sequence; and `passed` holds exactly when `score ≥ threshold`, non-strictly. -/
theorem consistency_verdict_spec (gen : List ℚ) (refs : List (List ℚ))
    (txt : Option (List ℚ)) (threshold : ℚ) :
    (check_character_consistency gen refs txt threshold).score =
      (match txt with
        | none =>
            if refs = [] then 0
            else (refs.map (fun r => dot gen r)).sum / refs.length
        | some t =>
            7 / 10 * (if refs = [] then 0
              else (refs.map (fun r => dot gen r)).sum / refs.length) +
            3 / 10 * dot gen t) ∧
    ((check_character_consistency gen refs txt threshold).passed = true ↔
      threshold ≤ (check_character_consistency gen refs txt threshold).score) := by
  constructor
  · cases txt with
    | none =>
        simp only [check_character_consistency, Option.map_none', List.isEmpty_iff,
          List.map_eq_nil_iff, List.length_map]
    | some t =>
        simp only [check_character_consistency, Option.map_some', List.isEmpty_iff,
          List.map_eq_nil_iff, List.length_map]
  · simp only [check_character_consistency, decide_eq_true_iff]

theorem sq_cross_le_iff (p q a b : ℝ) (ha : 0 < a) (hb : 0 < b)
    (hp : 0 ≤ p) (hq : 0 ≤ q) : p ^ 2 * b ^ 2 ≤ q ^ 2 * a ^ 2 ↔ p * b ≤ q * a := by
  constructor
  · intro h
    by_contra hc
    push_neg at hc
    have h1 : 0 ≤ q * a := mul_nonneg hq ha.le
    have h2 := mul_self_lt_mul_self h1 hc
    nlinarith
  · intro h
    have h1 : 0 ≤ p * b := mul_nonneg hp hb.le
    have h2 := mul_self_le_mul_self h1 h
    nlinarith

/-- `CosVal.le` decides exactly the ordering of the represented real values,
whenever both denominators are positive. -/
theorem cosVal_le_iff (x y : CosVal) (hx : 0 < x.denSq) (hy : 0 < y.denSq) :
    CosVal.le x y = true ↔
      (x.num : ℝ) / Real.sqrt (x.denSq : ℝ) ≤ (y.num : ℝ) / Real.sqrt (y.denSq : ℝ) := by
  have hxR : (0 : ℝ) < (x.denSq : ℝ) := by exact_mod_cast hx
  have hyR : (0 : ℝ) < (y.denSq : ℝ) := by exact_mod_cast hy
  have ha : 0 < Real.sqrt (x.denSq : ℝ) := Real.sqrt_pos.mpr hxR
  have hb : 0 < Real.sqrt (y.denSq : ℝ) := Real.sqrt_pos.mpr hyR
  have ha2 : Real.sqrt (x.denSq : ℝ) ^ 2 = (x.denSq : ℝ) := Real.sq_sqrt hxR.le
  have hb2 : Real.sqrt (y.denSq : ℝ) ^ 2 = (y.denSq : ℝ) := Real.sq_sqrt hyR.le
  rw [div_le_div_iff₀ ha hb]
  unfold CosVal.le
  split_ifs with h1 h2 h3
  · have hX : (x.num : ℝ) < 0 := by exact_mod_cast h1
    have hY : (y.num : ℝ) < 0 := by exact_mod_cast h2
    rw [decide_eq_true_iff]
    have hcast : (y.num ^ 2 * x.denSq ≤ x.num ^ 2 * y.denSq) ↔
        ((y.num : ℝ) ^ 2 * (x.denSq : ℝ) ≤ (x.num : ℝ) ^ 2 * (y.denSq : ℝ)) := by
      constructor <;> intro h <;> exact_mod_cast h
    rw [hcast]
    have hiff := sq_cross_le_iff (-(y.num : ℝ)) (-(x.num : ℝ))
      (Real.sqrt (y.denSq : ℝ)) (Real.sqrt (x.denSq : ℝ)) hb ha
      (by linarith) (by linarith)
    rw [ha2, hb2] at hiff
    simp only [neg_sq] at hiff
    rw [hiff]
    constructor <;> intro h <;> linarith
  · have hX : (x.num : ℝ) < 0 := by exact_mod_cast h1
    have hY : (0 : ℝ) ≤ (y.num : ℝ) := by
      have : (0 : ℚ) ≤ y.num := not_lt.mp h2
      exact_mod_cast this
    simp only [true_iff]
    have e1 : (x.num : ℝ) * Real.sqrt (y.denSq : ℝ) ≤ 0 :=
      mul_nonpos_of_nonpos_of_nonneg hX.le hb.le
    have e2 : 0 ≤ (y.num : ℝ) * Real.sqrt (x.denSq : ℝ) := mul_nonneg hY ha.le
    linarith
  · have hX : (0 : ℝ) ≤ (x.num : ℝ) := by
      have : (0 : ℚ) ≤ x.num := not_lt.mp h1
      exact_mod_cast this
    have hY : (y.num : ℝ) < 0 := by exact_mod_cast h3
    simp only [false_iff, not_le]
    have e1 : (y.num : ℝ) * Real.sqrt (x.denSq : ℝ) < 0 := mul_neg_of_neg_of_pos hY ha
    have e2 : 0 ≤ (x.num : ℝ) * Real.sqrt (y.denSq : ℝ) := mul_nonneg hX hb.le
    linarith
  · have hX : (0 : ℝ) ≤ (x.num : ℝ) := by
      have : (0 : ℚ) ≤ x.num := not_lt.mp h1
      exact_mod_cast this
    have hY : (0 : ℝ) ≤ (y.num : ℝ) := by
      have : (0 : ℚ) ≤ y.num := not_lt.mp h3
      exact_mod_cast this
    rw [decide_eq_true_iff]
    have hcast : (x.num ^ 2 * y.denSq ≤ y.num ^ 2 * x.denSq) ↔
        ((x.num : ℝ) ^ 2 * (y.denSq : ℝ) ≤ (y.num : ℝ) ^ 2 * (x.denSq : ℝ)) := by
      constructor <;> intro h <;> exact_mod_cast h
    rw [hcast]
    have hiff := sq_cross_le_iff ((x.num : ℝ)) ((y.num : ℝ))
      (Real.sqrt (x.denSq : ℝ)) (Real.sqrt (y.denSq : ℝ)) ha hb hX hY
    rw [ha2, hb2] at hiff
    exact hiff

theorem cosVal_le_total (x y : CosVal) (hx : 0 < x.denSq) (hy : 0 < y.denSq) :
    CosVal.le x y = true ∨ CosVal.le y x = true := by
  rcases le_total ((x.num : ℝ) / Real.sqrt (x.denSq : ℝ))
      ((y.num : ℝ) / Real.sqrt (y.denSq : ℝ)) with h | h
  · exact Or.inl ((cosVal_le_iff x y hx hy).mpr h)
  · exact Or.inr ((cosVal_le_iff y x hy hx).mpr h)

theorem cosVal_le_trans (x y z : CosVal) (hx : 0 < x.denSq) (hy : 0 < y.denSq)
    (hz : 0 < z.denSq) (h1 : CosVal.le x y = true) (h2 : CosVal.le y z = true) :
    CosVal.le x z = true :=
  (cosVal_le_iff x z hx hz).mpr
    (le_trans ((cosVal_le_iff x y hx hy).mp h1) ((cosVal_le_iff y z hy hz).mp h2))

theorem dot_cons (a b : ℚ) (as bs : List ℚ) :
    dot (a :: as) (b :: bs) = a * b + dot as bs := by
  simp [dot]

theorem normSq_nonneg (v : List ℚ) : 0 ≤ normSq v := by
  induction v with
  | nil => simp [normSq, dot]
  | cons x xs ih =>
      have h := dot_cons x x xs xs
      have : normSq (x :: xs) = x * x + normSq xs := h
      rw [this]
      nlinarith

theorem enumFrom_length {α : Type} (n : ℕ) (l : List α) :
    (enumFrom n l).length = l.length := by
  induction l generalizing n with
  | nil => rfl
  | cons c cs ih => simp [enumFrom, ih]

theorem enumFrom_mem {α : Type} {p : ℕ × α} (n : ℕ) (l : List α)
    (h : p ∈ enumFrom n l) :
    ∃ i, ∃ hi : i < l.length, p.1 = n + i ∧ p.2 = l.get ⟨i, hi⟩ := by
  induction l generalizing n with
  | nil => simp [enumFrom] at h
  | cons c cs ih =>
      simp only [enumFrom, List.mem_cons] at h
      rcases h with h | h
      · exact ⟨0, by simp, by simp [h], by simp [h]⟩
      · rcases ih (n + 1) h with ⟨i, hi, h1, h2⟩
        exact ⟨i + 1, by simpa using hi, by omega, by simpa using h2⟩

theorem enumFrom_pairwise {α : Type} (n : ℕ) (l : List α) :
    (enumFrom n l).Pairwise (fun a b => a.1 < b.1) := by
  induction l generalizing n with
  | nil => exact List.Pairwise.nil
  | cons c cs ih =>
      refine List.Pairwise.cons ?_ (ih (n + 1))
      intro b hb
      rcases enumFrom_mem (n + 1) cs hb with ⟨i, hi, h1, _⟩
      omega

theorem insEntry_perm (x : SimEntry) (l : List SimEntry) :
    (insEntry x l).Perm (x :: l) := by
  induction l with
  | nil => exact List.Perm.refl _
  | cons y ys ih =>
      unfold insEntry
      split_ifs
      · exact ((ih.cons y).trans (List.Perm.swap x y ys))
      · exact List.Perm.refl _

theorem sortDesc_perm (l : List SimEntry) : (sortDesc l).Perm l := by
  induction l with
  | nil => exact List.Perm.refl _
  | cons x xs ih => exact (insEntry_perm x (sortDesc xs)).trans (ih.cons x)

theorem cosVal_not_lt (x y : CosVal) (hx : 0 < x.denSq) (hy : 0 < y.denSq)
    (h : ¬ CosVal.lt x y = true) : CosVal.le y x = true := by
  rcases cosVal_le_total x y hx hy with h1 | h1
  · cases hyx : CosVal.le y x with
    | true => rfl
    | false => exact absurd (by simp [CosVal.lt, h1, hyx]) h
  · exact h1

theorem cosVal_lt_le (x y : CosVal) (h : CosVal.lt x y = true) :
    CosVal.le x y = true ∧ CosVal.le y x = false := by
  simpa [CosVal.lt, Bool.and_eq_true, Bool.not_eq_true'] using h

theorem insEntry_sorted (x : SimEntry) (l : List SimEntry)
    (hgx : 0 < x.sim.denSq) (hgl : ∀ e ∈ l, 0 < e.sim.denSq)
    (hidx : ∀ e ∈ l, x.index < e.index)
    (hl : l.Pairwise EntryOrd) : (insEntry x l).Pairwise EntryOrd := by
  induction l with
  | nil => simp [insEntry, EntryOrd]
  | cons y ys ih =>
      have hgy : 0 < y.sim.denSq := hgl y (by simp)
      have hgys : ∀ e ∈ ys, 0 < e.sim.denSq := fun e he => hgl e (by simp [he])
      have hidxys : ∀ e ∈ ys, x.index < e.index := fun e he => hidx e (by simp [he])
      rcases List.pairwise_cons.mp hl with ⟨hyys, hys⟩
      unfold insEntry
      split_ifs with hlt
      · refine List.pairwise_cons.mpr ⟨?_, ih hgys hidxys hys⟩
        intro z hz
        rcases List.mem_cons.mp ((insEntry_perm x ys).mem_iff.mp hz) with hz | hz
        · rcases cosVal_lt_le x.sim y.sim hlt with ⟨h1, h2⟩
          rw [hz]
          exact ⟨h1, fun hcon => absurd hcon (by simp [h2])⟩
        · exact hyys z hz
      · refine List.pairwise_cons.mpr ⟨?_, hl⟩
        intro z hz
        rcases List.mem_cons.mp hz with hz | hz
        · subst hz
          exact ⟨cosVal_not_lt x.sim z.sim hgx hgy hlt,
            fun _ => hidx z (by simp)⟩
        · have hgz : 0 < z.sim.denSq := hgys z hz
          have h1 : CosVal.le y.sim x.sim = true :=
            cosVal_not_lt x.sim y.sim hgx hgy hlt
          have h2 : CosVal.le z.sim y.sim = true := (hyys z hz).1
          exact ⟨cosVal_le_trans z.sim y.sim x.sim hgz hgy hgx h2 h1,
            fun _ => hidx z (by simp [hz])⟩

theorem sortDesc_sorted (l : List SimEntry) (hg : ∀ e ∈ l, 0 < e.sim.denSq)
    (hidx : l.Pairwise (fun a b => a.index < b.index)) :
    (sortDesc l).Pairwise EntryOrd := by
  induction l with
  | nil => exact List.Pairwise.nil
  | cons x xs ih =>
      rcases List.pairwise_cons.mp hidx with ⟨hxidx, hxs⟩
      have hgx : 0 < x.sim.denSq := hg x (by simp)
      have hgxs : ∀ e ∈ xs, 0 < e.sim.denSq := fun e he => hg e (by simp [he])
      have hgsort : ∀ e ∈ sortDesc xs, 0 < e.sim.denSq := fun e he =>
        hgxs e ((sortDesc_perm xs).mem_iff.mp he)
      have hidxsort : ∀ e ∈ sortDesc xs, x.index < e.index := fun e he =>
        hxidx e ((sortDesc_perm xs).mem_iff.mp he)
      exact insEntry_sorted x (sortDesc xs) hgx hgsort hidxsort (ih hgxs hxs)

/-- C2 (amended): for non-degenerate inputs, `find_most_similar` (and the
identical `/search` handler `search_similar`) returns the candidates' cosine
similarities sorted in descending order of score with ties broken by ascending
original candidate index, and the result length is `min k (number of
candidates)`. No clamping of `k` into `[1, 100]` is performed by this code:
the production server rejects out-of-range `k` in request validation instead,
and `clip_server` passes `k` through unchecked (see the counterexample). -/
theorem rankTopK_spec (query : List ℚ) (cands : List (List ℚ)) (topK : ℕ)
    (hq : normSq query ≠ 0) (hc : ∀ c ∈ cands, normSq c ≠ 0) :
    (find_most_similar query cands topK).length = min topK cands.length ∧
    (find_most_similar query cands topK).Pairwise (fun a b =>
      ((b.sim.num : ℝ) / Real.sqrt (b.sim.denSq : ℝ) ≤
        (a.sim.num : ℝ) / Real.sqrt (a.sim.denSq : ℝ)) ∧
      ((a.sim.num : ℝ) / Real.sqrt (a.sim.denSq : ℝ) =
        (b.sim.num : ℝ) / Real.sqrt (b.sim.denSq : ℝ) → a.index < b.index)) ∧
    (∀ e ∈ find_most_similar query cands topK, ∃ hi : e.index < cands.length,
      e.sim = { num := dot query (cands.get ⟨e.index, hi⟩),
                denSq := normSq query * normSq (cands.get ⟨e.index, hi⟩) }) := by
  have hqpos : 0 < normSq query := lt_of_le_of_ne (normSq_nonneg query) (Ne.symm hq)
  set sims := (enumFrom 0 cands).map
    (fun p => ({ index := p.1,
                 sim := { num := dot query p.2,
                          denSq := normSq query * normSq p.2 } } : SimEntry))
    with hsims
  have hfind : find_most_similar query cands topK = (sortDesc sims).take topK := by
    simp [find_most_similar, hsims]
  have hmem_sims : ∀ e ∈ sims, ∃ i, ∃ hi2 : i < cands.length, e.index = i ∧
      e.sim = { num := dot query (cands.get ⟨i, hi2⟩),
                denSq := normSq query * normSq (cands.get ⟨i, hi2⟩) } := by
    intro e he
    rcases List.mem_map.mp he with ⟨p, hp, hpe⟩
    rcases enumFrom_mem 0 cands hp with ⟨i, hi, h1, h2⟩
    refine ⟨i, hi, ?_, ?_⟩
    · rw [← hpe]; simpa using h1
    · rw [← hpe]; simp [h2]
  have hpos_sims : ∀ e ∈ sims, 0 < e.sim.denSq := by
    intro e he
    rcases hmem_sims e he with ⟨i, hi2, _, hSim⟩
    have hcmem : cands.get ⟨i, hi2⟩ ∈ cands := List.get_mem cands i hi2
    have hcne : normSq (cands.get ⟨i, hi2⟩) ≠ 0 := hc _ hcmem
    have hcpos : 0 < normSq (cands.get ⟨i, hi2⟩) :=
      lt_of_le_of_ne (normSq_nonneg _) (Ne.symm hcne)
    rw [hSim]
    exact mul_pos hqpos hcpos
  have hidxpair : sims.Pairwise (fun a b => a.index < b.index) := by
    rw [hsims, List.pairwise_map]
    exact enumFrom_pairwise 0 cands
  have hsorted : (sortDesc sims).Pairwise EntryOrd :=
    sortDesc_sorted sims hpos_sims hidxpair
  have hpos_sort : ∀ e ∈ sortDesc sims, 0 < e.sim.denSq := fun e he =>
    hpos_sims e ((sortDesc_perm sims).mem_iff.mp he)
  have hpos_take : ∀ e ∈ (sortDesc sims).take topK, 0 < e.sim.denSq := fun e he =>
    hpos_sort e (List.take_subset topK (sortDesc sims) he)
  refine ⟨?_, ?_, ?_⟩
  · rw [hfind, List.length_take, (sortDesc_perm sims).length_eq, hsims,
      List.length_map, enumFrom_length]
  · rw [hfind]
    have htake : ((sortDesc sims).take topK).Pairwise EntryOrd :=
      hsorted.sublist (List.take_sublist topK (sortDesc sims))
    refine List.Pairwise.imp_of_mem ?_ htake
    intro a b ha hb hab
    have hpa : 0 < a.sim.denSq := hpos_take a ha
    have hpb : 0 < b.sim.denSq := hpos_take b hb
    refine ⟨(cosVal_le_iff b.sim a.sim hpb hpa).mp hab.1, ?_⟩
    intro heq
    exact hab.2 ((cosVal_le_iff a.sim b.sim hpa hpb).mpr (le_of_eq heq))
  · intro e he
    rw [hfind] at he
    have hes : e ∈ sims :=
      (sortDesc_perm sims).mem_iff.mp (List.take_subset topK (sortDesc sims) he)
    rcases hmem_sims e hes with ⟨i, hi2, hIdx, hSim⟩
    subst hIdx
    exact ⟨hi2, hSim⟩

/-- Witness for C2's theorem at a concrete instance: three candidates, `k = 2`,
result length `min 2 3 = 2`. -/
theorem rankTopK_spec_witness :
    (find_most_similar [(1 : ℚ), 0] [[1, 0], [0, 1], [-1, 0]] 2).length = min 2 3 :=
  (rankTopK_spec [(1 : ℚ), 0] [[1, 0], [0, 1], [-1, 0]] 2
    (by norm_num [normSq, dot])
    (by intro c hc; fin_cases hc <;> norm_num [normSq, dot])).1

/-- C2 counterexample to the claim as stated: `k` is not clamped into
`[1, 100]`. `find_most_similar` called with `k = 0` (which clip_server's
`/search` route passes through unvalidated) returns an empty result, while the
claimed clamping `k ↦ min (max k 1) 100` would require
`min 1 2 = 1` result. -/
theorem rankTopK_no_clamp_counterexample :
    (find_most_similar [(1 : ℚ), 0] [[1, 0], [0, 1]] 0).length = 0 ∧
    (0 : ℕ) ≠ min (min (max 0 1) 100) ([[(1 : ℚ), 0], [0, 1]].length) := by
  exact ⟨rfl, by decide⟩

/-- C6 counterexample to the claim as stated: a dimension mismatch is
surfaced by the `/similarity` handlers as a generic server-side 500 error
(the caught numpy `ValueError`), not as a client-side (4xx) validation
error distinguishable by the caller. -/
theorem similarity_mismatch_counterexample :
    calculate_similarity [(1 : ℚ)] [1, 2] = SimOutcome.httpError 500 ∧
    (∀ s : ℕ, calculate_similarity [(1 : ℚ)] [1, 2] = SimOutcome.httpError s →
      ¬(400 ≤ s ∧ s < 500)) := by
  constructor
  · rfl
  · intro s hs
    rw [show calculate_similarity [(1 : ℚ)] [1, 2] = SimOutcome.httpError 500 from rfl]
      at hs
    injection hs with h1
    omega

/-- C6 (amended): on vectors of differing length `calculate_similarity` does
fail rather than compute a result, but the failure is the numpy shape error
caught and re-surfaced as a generic 500 server-side HTTP error, not a
dedicated client-side `DimensionMismatchError`. -/
theorem similarity_dim_mismatch (e1 e2 : List ℚ) (h : e1.length ≠ e2.length) :
    calculate_similarity e1 e2 = SimOutcome.httpError 500 := by
  simp [calculate_similarity, h]

/-- Witness for C6's amended theorem on concrete mismatched vectors. -/
theorem similarity_dim_mismatch_witness :
    calculate_similarity [(1 : ℚ)] [1, 2, 3] = SimOutcome.httpError 500 :=
  similarity_dim_mismatch [(1 : ℚ)] [1, 2, 3] (by decide)

theorem dot_cast (v w : List ℚ) :
    ((dot v w : ℚ) : ℝ) = (List.zipWith (fun a b : ℚ => (a : ℝ) * (b : ℝ)) v w).sum := by
  induction v generalizing w with
  | nil => simp [dot]
  | cons x xs ih =>
      cases w with
      | nil => simp [dot]
      | cons y ys =>
          rw [dot_cons]
          push_cast
          rw [ih ys]
          simp

theorem zip_norm_sum (p q : ℝ) (v w : List ℚ) :
    (List.zipWith (fun a b => a * b)
      (v.map (fun x : ℚ => (x : ℝ) / p)) (w.map (fun y : ℚ => (y : ℝ) / q))).sum
    = (List.zipWith (fun a b : ℚ => (a : ℝ) * (b : ℝ)) v w).sum / (p * q) := by
  induction v generalizing w with
  | nil => simp
  | cons x xs ih =>
      cases w with
      | nil => simp
      | cons y ys =>
          simp only [List.map_cons, List.zipWith_cons_cons, List.sum_cons, ih ys]
          rw [div_mul_div_comm, add_div]

/-- C7 counterexample to the claim as stated: normalizing the zero-norm
vector `[0, 0]` produces NaN components (numpy `0/0` emits a warning, not an
exception), so `/similarity` returns a NaN score with a success status; no
`DegenerateVectorError` — indeed no error of any status — is surfaced. -/
theorem zero_norm_counterexample :
    calculate_similarity [(0 : ℚ), 0] [1, 0] = SimOutcome.okNaN ∧
    (∀ s : ℕ, calculate_similarity [(0 : ℚ), 0] [1, 0] ≠ SimOutcome.httpError s) := by
  have h : calculate_similarity [(0 : ℚ), 0] [1, 0] = SimOutcome.okNaN := by
    simp [calculate_similarity, normSq, dot]
  exact ⟨h, fun s hs => by rw [h] at hs; exact SimOutcome.noConfusion hs⟩

/-- C7 (amended): inside `calculate_similarity`, normalizing a nonempty
zero-norm vector yields NaN (surfaced as a NaN similarity with success
status) rather than a `DegenerateVectorError`; for vectors of non-zero norm
the computation divides every component by the vector's Euclidean norm: the
finite result is exactly the sum of products of the componentwise-normalized
inputs. -/
theorem similarity_normalization (v w : List ℚ) (hlen : v.length = w.length) :
    (v ≠ [] → normSq v = 0 → calculate_similarity v w = SimOutcome.okNaN) ∧
    (normSq v ≠ 0 → normSq w ≠ 0 →
      calculate_similarity v w =
        SimOutcome.ok { num := dot v w, denSq := normSq v * normSq w } ∧
      ((dot v w : ℝ) / Real.sqrt ((normSq v * normSq w : ℚ) : ℝ) =
        (List.zipWith (fun a b => a * b)
          (v.map (fun x : ℚ => (x : ℝ) / Real.sqrt ((normSq v : ℚ) : ℝ)))
          (w.map (fun y : ℚ => (y : ℝ) / Real.sqrt ((normSq w : ℚ) : ℝ)))).sum)) := by
  constructor
  · intro hv hz
    simp [calculate_similarity, hlen, hv, hz]
  · intro hv hw
    constructor
    · simp [calculate_similarity, hlen, hv, hw]
    · rw [zip_norm_sum, ← dot_cast, ← Real.sqrt_mul (by exact_mod_cast normSq_nonneg v)]
      push_cast
      ring_nf

/-- Witness for C7's amended theorem: the finite branch at `[1,0]`, `[0,1]`. -/
theorem similarity_normalization_witness :
    calculate_similarity [(1 : ℚ), 0] [0, 1] =
      SimOutcome.ok { num := dot [(1 : ℚ), 0] [0, 1],
                      denSq := normSq [(1 : ℚ), 0] * normSq [(0 : ℚ), 1] } :=
  ((similarity_normalization [(1 : ℚ), 0] [0, 1] rfl).2
    (by norm_num [normSq, dot]) (by norm_num [normSq, dot])).1

theorem serialize_length (v : List ℕ) : (serialize v).length = 4 * v.length := by
  induction v with
  | nil => rfl
  | cons w ws ih => simp [serialize, wordBytes, ih]; omega

theorem deserialize_serialize (v : List ℕ) (h : ∀ w ∈ v, w < 2 ^ 32) :
    deserialize (serialize v) = v := by
  induction v with
  | nil => rfl
  | cons w ws ih =>
      have hw : w < 2 ^ 32 := h w (by simp)
      have hrest : ∀ u ∈ ws, u < 2 ^ 32 := fun u hu => h u (by simp [hu])
      show deserialize (wordBytes w ++ serialize ws) = w :: ws
      simp only [wordBytes, List.cons_append, List.nil_append]
      simp only [deserialize, ih hrest]
      congr 1
      omega

theorem memErase_length (key : String) (l : List (String × List ℕ × ℚ)) :
    (memErase key l).length ≤ l.length := by
  induction l with
  | nil => simp [memErase]
  | cons e es ih =>
      unfold memErase
      split_ifs
      · simp
      · simp only [List.length_cons]
        exact Nat.succ_le_succ ih

theorem memInsert_length (key : String) (v : List ℕ × ℚ)
    (l : List (String × List ℕ × ℚ)) :
    (memInsert key v l).length ≤ l.length + 1 := by
  induction l with
  | nil => simp [memInsert]
  | cons e es ih =>
      unfold memInsert
      split_ifs
      · simp
      · simp only [List.length_cons]
        exact Nat.succ_le_succ ih

theorem memGetStep_state (cfg : CacheConfig) (st : CacheState) (now : ℚ)
    (key : String) :
    (memGetStep cfg st now key).2 = st ∨
    (memGetStep cfg st now key).2 = { memoryCache := memErase key st.memoryCache } := by
  unfold memGetStep
  cases h : memLookup key st.memoryCache with
  | none => exact Or.inl rfl
  | some p =>
      rcases p with ⟨emb, ts⟩
      by_cases hf : now - ts < cfg.cacheTtl
      · exact Or.inl (by simp [hf])
      · exact Or.inr (by simp [hf])

theorem getFromCache_state (cfg : CacheConfig) (st : CacheState) (now : ℚ)
    (redis : RedisResp) (key : String) :
    (getFromCache cfg st now redis key).2 = st ∨
    (getFromCache cfg st now redis key).2 = { memoryCache := memErase key st.memoryCache } := by
  unfold getFromCache getFromCacheBody
  cases hEn : cfg.cacheEnabled
  · simp
  · cases hRed : cfg.redisConfigured
    · simpa using memGetStep_state cfg st now key
    · rcases redis with v | _
      · rcases v with _ | bs
        · simpa using memGetStep_state cfg st now key
        · by_cases hbs : bs = []
          · simpa [hbs] using memGetStep_state cfg st now key
          · simp [hbs]
      · simp

theorem memPutStep_length (cfg : CacheConfig) (st : CacheState) (now : ℚ)
    (key : String) (emb : List ℕ)
    (h : st.memoryCache.length ≤ cfg.maxMemCacheSize) :
    (memPutStep cfg st now key emb).memoryCache.length ≤ cfg.maxMemCacheSize := by
  unfold memPutStep
  split_ifs with hlt
  · have h2 := memInsert_length key (emb, now) st.memoryCache
    simp only []
    omega
  · exact h

theorem storeInCache_state (cfg : CacheConfig) (st : CacheState) (now : ℚ)
    (redisW : RedisWResp) (key : String) (emb : List ℕ) :
    (storeInCache cfg st now redisW key emb).1 = st ∨
    (storeInCache cfg st now redisW key emb).1 = memPutStep cfg st now key emb := by
  unfold storeInCache storeInCacheBody
  cases hEn : cfg.cacheEnabled
  · simp
  · cases hRed : cfg.redisConfigured
    · simp
    · cases redisW
      · simp
      · simp

theorem stepCache_length (cfg : CacheConfig) (st : CacheState) (op : CacheOp)
    (h : st.memoryCache.length ≤ cfg.maxMemCacheSize) :
    (stepCache cfg st op).memoryCache.length ≤ cfg.maxMemCacheSize := by
  cases op with
  | get key now redis =>
      rcases getFromCache_state cfg st now redis key with h2 | h2 <;>
        simp only [stepCache] <;> rw [h2]
      · exact h
      · exact le_trans (memErase_length key st.memoryCache) h
  | put key emb now redisW =>
      rcases storeInCache_state cfg st now redisW key emb with h2 | h2 <;>
        simp only [stepCache] <;> rw [h2]
      · exact h
      · exact memPutStep_length cfg st now key emb h

theorem runCache_length (cfg : CacheConfig) (ops : List CacheOp) :
    ∀ st : CacheState, st.memoryCache.length ≤ cfg.maxMemCacheSize →
      (runCache cfg st ops).memoryCache.length ≤ cfg.maxMemCacheSize := by
  induction ops with
  | nil => intro st h; exact h
  | cons op rest ih =>
      intro st h
      show (runCache cfg (stepCache cfg st op) rest).memoryCache.length ≤ _
      exact ih _ (stepCache_length cfg st op h)

/-- C3: `_get_from_cache` probes the durable tier first and the fast tier
second; a durable hit is returned without any local TTL check (the result is
independent of clock and TTL and leaves the fast tier untouched), while a
fast-tier hit is checked against `cache_ttl` via its recorded timestamp and,
when expired, the entry is deleted from the fast tier and the lookup misses. -/
theorem cache_get_tier_order (cfg : CacheConfig) (st : CacheState) (now : ℚ)
    (redis : RedisResp) (key : String) (hEn : cfg.cacheEnabled = true) :
    (∀ bs, cfg.redisConfigured = true → redis = RedisResp.ok (some bs) → bs ≠ [] →
        getFromCache cfg st now redis key = (some (deserialize bs), st)) ∧
    ((cfg.redisConfigured = false ∨ redis = RedisResp.ok none) →
      (∀ emb ts, memLookup key st.memoryCache = some (emb, ts) →
          (now - ts < cfg.cacheTtl →
            getFromCache cfg st now redis key = (some emb, st)) ∧
          (cfg.cacheTtl ≤ now - ts →
            getFromCache cfg st now redis key =
              (none, { memoryCache := memErase key st.memoryCache }))) ∧
      (memLookup key st.memoryCache = none →
        getFromCache cfg st now redis key = (none, st))) := by
  constructor
  · intro bs hRed hr hbs
    subst hr
    simp [getFromCache, getFromCacheBody, hEn, hRed, hbs]
  · intro hmiss
    have hstep : getFromCache cfg st now redis key = memGetStep cfg st now key := by
      rcases hmiss with hRed | hr
      · simp [getFromCache, getFromCacheBody, hEn, hRed]
      · subst hr
        cases hRed : cfg.redisConfigured <;>
          simp [getFromCache, getFromCacheBody, hEn, hRed]
    constructor
    · intro emb ts hm
      constructor
      · intro hf
        rw [hstep]
        simp [memGetStep, hm, hf]
      · intro hexp
        rw [hstep]
        simp [memGetStep, hm, not_lt.mpr hexp]
    · intro hm
      rw [hstep]
      simp [memGetStep, hm]

/-- Witness for C3: a durable-tier hit is returned directly even though the
fast tier holds a fresh entry for the same key. -/
theorem cache_get_tier_order_witness :
    getFromCache ⟨true, true, 10, 5⟩ ⟨[("k", [2], 0)]⟩ 1
      (RedisResp.ok (some [1, 2, 3, 4])) "k"
      = (some (deserialize [1, 2, 3, 4]), ⟨[("k", [2], 0)]⟩) :=
  (cache_get_tier_order ⟨true, true, 10, 5⟩ ⟨[("k", [2], 0)]⟩ 1
    (RedisResp.ok (some [1, 2, 3, 4])) "k" rfl).1 [1, 2, 3, 4] rfl rfl (by decide)

/-- C4: a put inserts into the fast tier only while occupancy is strictly
below `max_memory_cache_size`; at capacity the fast-tier write is silently
dropped with no eviction while the durable `setex` write still proceeds; and
starting from an empty fast tier, no sequence of cache operations ever
drives the fast tier's occupancy above the configured capacity. -/
theorem fast_tier_admission (cfg : CacheConfig) (ops : List CacheOp)
    (st : CacheState) (now : ℚ) (key : String) (emb : List ℕ)
    (hEn : cfg.cacheEnabled = true) (hRed : cfg.redisConfigured = true) :
    (st.memoryCache.length < cfg.maxMemCacheSize →
      storeInCache cfg st now RedisWResp.ok key emb =
        ({ memoryCache := memInsert key (emb, now) st.memoryCache },
          some { key := key, ttl := cfg.cacheTtl, bytes := serialize emb })) ∧
    (cfg.maxMemCacheSize ≤ st.memoryCache.length →
      storeInCache cfg st now RedisWResp.ok key emb =
        (st, some { key := key, ttl := cfg.cacheTtl, bytes := serialize emb })) ∧
    (runCache cfg { memoryCache := [] } ops).memoryCache.length ≤
      cfg.maxMemCacheSize := by
  refine ⟨?_, ?_, ?_⟩
  · intro hlt
    simp [storeInCache, storeInCacheBody, memPutStep, hEn, hRed, hlt]
  · intro hge
    simp [storeInCache, storeInCacheBody, memPutStep, hEn, hRed, not_lt.mpr hge]
  · exact runCache_length cfg ops { memoryCache := [] } (by simp)

/-- Witness for C4 at capacity one: the put of a second key is dropped from
the fast tier while the durable write still carries the serialised vector. -/
theorem fast_tier_admission_witness :
    storeInCache ⟨true, true, 10, 1⟩ ⟨[("a", [5], 0)]⟩ 3 RedisWResp.ok "b" [9]
      = (⟨[("a", [5], 0)]⟩, some { key := "b", ttl := 10, bytes := serialize [9] }) :=
  (fast_tier_admission ⟨true, true, 10, 1⟩ [] ⟨[("a", [5], 0)]⟩ 3 "b" [9]
    rfl rfl).2.1 (by decide)

/-- C5: cache operations are fail-soft: when the durable-tier call raises, a
read is converted into a cache miss and a write into a no-op; the exception
is absorbed inside the cache helpers and the fast tier is left unchanged, so
the surrounding request never observes a cache failure. -/
theorem cache_fail_soft (cfg : CacheConfig) (st : CacheState) (now : ℚ)
    (key : String) (emb : List ℕ)
    (hEn : cfg.cacheEnabled = true) (hRed : cfg.redisConfigured = true) :
    getFromCache cfg st now RedisResp.err key = (none, st) ∧
    storeInCache cfg st now RedisWResp.err key emb = (st, none) := by
  constructor
  · simp [getFromCache, getFromCacheBody, hEn, hRed]
  · simp [storeInCache, storeInCacheBody, hEn, hRed]

/-- Witness for C5 with a populated fast tier. -/
theorem cache_fail_soft_witness :
    getFromCache ⟨true, true, 10, 5⟩ ⟨[("k", [2], 0)]⟩ 1 RedisResp.err "k"
      = (none, ⟨[("k", [2], 0)]⟩) :=
  (cache_fail_soft ⟨true, true, 10, 5⟩ ⟨[("k", [2], 0)]⟩ 1 "k" [7] rfl rfl).1

/-- C10: when the redis call inside a cache operation raises, the rest of the
operation is skipped rather than falling through: the get misses without
consulting the fast tier even though the key is present there and unexpired,
and the put performs no fast-tier insertion even though there is room. -/
theorem redis_error_skips_fast_tier (cfg : CacheConfig) (st : CacheState)
    (now : ℚ) (key : String) (emb emb2 : List ℕ) (ts : ℚ)
    (hEn : cfg.cacheEnabled = true) (hRed : cfg.redisConfigured = true)
    (hmem : memLookup key st.memoryCache = some (emb, ts))
    (hfresh : now - ts < cfg.cacheTtl)
    (hroom : st.memoryCache.length < cfg.maxMemCacheSize) :
    getFromCache cfg st now RedisResp.err key = (none, st) ∧
    storeInCache cfg st now RedisWResp.err key emb2 = (st, none) := by
  constructor
  · simp [getFromCache, getFromCacheBody, hEn, hRed]
  · simp [storeInCache, storeInCacheBody, hEn, hRed]

/-- Witness for C10: the fast tier holds a fresh entry for the key and has
room, yet the failing durable call makes the get miss and the put a no-op. -/
theorem redis_error_skips_fast_tier_witness :
    getFromCache ⟨true, true, 10, 5⟩ ⟨[("k", [2], 0)]⟩ 1 RedisResp.err "k"
        = (none, ⟨[("k", [2], 0)]⟩) ∧
    storeInCache ⟨true, true, 10, 5⟩ ⟨[("k", [2], 0)]⟩ 1 RedisWResp.err "k" [9]
        = (⟨[("k", [2], 0)]⟩, none) :=
  redis_error_skips_fast_tier ⟨true, true, 10, 5⟩ ⟨[("k", [2], 0)]⟩ 1 "k" [2] [9] 0
    rfl rfl (by simp [memLookup]) (by norm_num) (by decide)

/-- C8: a put hands the durable tier exactly the concatenation of the
vector's float32 components in little-endian byte order (byte length
`4 * dimension`), and a get that hits that durable entry reconstructs the
same vector, dimension included, from the bytes alone. -/
theorem cache_serialization_roundtrip (cfg : CacheConfig) (st st2 : CacheState)
    (now now2 : ℚ) (key : String) (v : List ℕ)
    (hEn : cfg.cacheEnabled = true) (hRed : cfg.redisConfigured = true)
    (hw : ∀ w ∈ v, w < 2 ^ 32) (hv : v ≠ []) :
    (storeInCache cfg st now RedisWResp.ok key v).2 =
      some { key := key, ttl := cfg.cacheTtl, bytes := serialize v } ∧
    (serialize v).length = 4 * v.length ∧
    getFromCache cfg st2 now2 (RedisResp.ok (some (serialize v))) key =
      (some v, st2) := by
  have hsne : serialize v ≠ [] := by
    intro hcon
    have h1 : (serialize v).length = 0 := by rw [hcon]; rfl
    rw [serialize_length v] at h1
    have : v = [] := by
      cases v with
      | nil => rfl
      | cons a as => simp at h1
    exact hv this
  refine ⟨?_, serialize_length v, ?_⟩
  · simp [storeInCache, storeInCacheBody, hEn, hRed]
  · simp [getFromCache, getFromCacheBody, hEn, hRed, hsne,
      deserialize_serialize v hw]

/-- Witness for C8 on a two-component vector with a maximal word value. -/
theorem cache_serialization_roundtrip_witness :
    getFromCache ⟨true, true, 10, 5⟩ ⟨[]⟩ 0
      (RedisResp.ok (some (serialize [1, 4294967295]))) "k"
      = (some [1, 4294967295], ⟨[]⟩) :=
  (cache_serialization_roundtrip ⟨true, true, 10, 5⟩ ⟨[]⟩ ⟨[]⟩ 0 0 "k"
    [1, 4294967295] rfl rfl (by decide) (by decide)).2.2

theorem memLookup_none_of_all_ne (key : String)
    (l : List (String × List ℕ × ℚ)) (h : ∀ e ∈ l, e.1 ≠ key) :
    memLookup key l = none := by
  induction l with
  | nil => rfl
  | cons e es ih =>
      unfold memLookup
      rw [if_neg (h e (by simp))]
      exact ih (fun e2 he2 => h e2 (by simp [he2]))

theorem memErase_sublist (key : String) (l : List (String × List ℕ × ℚ)) :
    (memErase key l).Sublist l := by
  induction l with
  | nil => simp [memErase]
  | cons e es ih =>
      unfold memErase
      split_ifs
      · exact (List.sublist_cons_self e es)
      · exact ih.cons₂ e

theorem memErase_nodup (key : String) (l : List (String × List ℕ × ℚ))
    (h : KeysNodup l) : KeysNodup (memErase key l) :=
  h.sublist (memErase_sublist key l)

theorem memLookup_memErase_self (key : String)
    (l : List (String × List ℕ × ℚ)) (h : KeysNodup l) :
    memLookup key (memErase key l) = none := by
  induction l with
  | nil => rfl
  | cons e es ih =>
      rcases List.pairwise_cons.mp h with ⟨hhd, htl⟩
      unfold memErase
      by_cases he : e.1 = key
      · rw [if_pos he]
        exact memLookup_none_of_all_ne key es
          (fun e2 he2 hc => (hhd e2 he2) (he.trans hc.symm))
      · rw [if_neg he]
        unfold memLookup
        rw [if_neg he]
        exact ih htl

theorem memLookup_memErase_ne (key k : String)
    (l : List (String × List ℕ × ℚ)) (hne : k ≠ key) :
    memLookup k (memErase key l) = memLookup k l := by
  induction l with
  | nil => rfl
  | cons e es ih =>
      unfold memErase
      by_cases he : e.1 = key
      · rw [if_pos he]
        have h2 : memLookup k (e :: es) = memLookup k es := by
          simp [memLookup, show ¬(e.1 = k) from by rw [he]; exact fun hc => hne hc.symm]
        exact h2.symm
      · rw [if_neg he]
        unfold memLookup
        by_cases hk : e.1 = k
        · rw [if_pos hk, if_pos hk]
        · rw [if_neg hk, if_neg hk]
          exact ih

theorem mem_memInsert (key : String) (v : List ℕ × ℚ)
    (l : List (String × List ℕ × ℚ)) (b : String × List ℕ × ℚ)
    (hb : b ∈ memInsert key v l) : b = (key, v) ∨ b ∈ l := by
  induction l with
  | nil => simpa [memInsert] using hb
  | cons e es ih =>
      unfold memInsert at hb
      split_ifs at hb
      · rcases List.mem_cons.mp hb with h | h
        · exact Or.inl h
        · exact Or.inr (by simp [h])
      · rcases List.mem_cons.mp hb with h | h
        · exact Or.inr (by simp [h])
        · rcases ih h with h2 | h2
          · exact Or.inl h2
          · exact Or.inr (by simp [h2])

theorem memInsert_nodup (key : String) (v : List ℕ × ℚ)
    (l : List (String × List ℕ × ℚ)) (h : KeysNodup l) :
    KeysNodup (memInsert key v l) := by
  induction l with
  | nil => simp [memInsert, KeysNodup]
  | cons e es ih =>
      rcases List.pairwise_cons.mp h with ⟨hhd, htl⟩
      unfold memInsert
      split_ifs with he
      · refine List.pairwise_cons.mpr ⟨?_, htl⟩
        intro b hb
        rw [← he]
        exact hhd b hb
      · refine List.pairwise_cons.mpr ⟨?_, ih htl⟩
        intro b hb
        rcases mem_memInsert key v es b hb with h2 | h2
        · rw [h2]
          exact he
        · exact hhd b h2

theorem memLookup_memInsert (key k : String) (v : List ℕ × ℚ)
    (l : List (String × List ℕ × ℚ)) :
    memLookup k (memInsert key v l) =
      if key = k then some v else memLookup k l := by
  induction l with
  | nil =>
      by_cases hk : key = k <;> simp [memInsert, memLookup, hk]
  | cons e es ih =>
      by_cases he : e.1 = key
      · by_cases hk : key = k
        · simp [memInsert, memLookup, he, hk]
        · have hek : ¬ e.1 = k := by rw [he]; exact hk
          simp [memInsert, memLookup, he, hk, hek]
      · by_cases hk2 : e.1 = k
        · have hkey : ¬ key = k := by rw [← hk2]; exact fun hc => he hc.symm
          have hkk : ¬ k = key := fun hc => he (hk2.trans hc)
          simp [memInsert, memLookup, he, hk2, hkey, hkk]
        · simp [memInsert, memLookup, he, hk2, ih]

theorem effectiveKey_enabled (env : BatchEnv) (cfg : CacheConfig)
    (d : String) (ck : Option String) (k : String)
    (h : effectiveKey env cfg d ck = some k) : cfg.cacheEnabled = true := by
  by_cases he : cfg.cacheEnabled = true
  · exact he
  · simp [effectiveKey, he] at h

theorem memGetStep_lookup (cfg : CacheConfig) (st : CacheState) (now : ℚ)
    (key : String) (hnodup : KeysNodup st.memoryCache) :
    KeysNodup (memGetStep cfg st now key).2.memoryCache ∧
    ∀ k e2 ts, memLookup k (memGetStep cfg st now key).2.memoryCache = some (e2, ts) →
      memLookup k st.memoryCache = some (e2, ts) := by
  unfold memGetStep
  cases hm : memLookup key st.memoryCache with
  | none => exact ⟨hnodup, fun k e2 ts h => h⟩
  | some p =>
      rcases p with ⟨emb, ts0⟩
      dsimp only
      by_cases hf : now - ts0 < cfg.cacheTtl
      · rw [if_pos hf]
        exact ⟨hnodup, fun k e2 ts h => h⟩
      · rw [if_neg hf]
        refine ⟨memErase_nodup key st.memoryCache hnodup, ?_⟩
        intro k e2 ts h
        have h2 : memLookup k (memErase key st.memoryCache) = some (e2, ts) := h
        by_cases hke : k = key
        · rw [hke, memLookup_memErase_self key st.memoryCache hnodup] at h2
          exact absurd h2 (by simp)
        · rw [memLookup_memErase_ne key k st.memoryCache hke] at h2
          exact h2

theorem memPutStep_lookup (cfg : CacheConfig) (st : CacheState) (now : ℚ)
    (key : String) (emb : List ℕ) (hnodup : KeysNodup st.memoryCache) :
    KeysNodup (memPutStep cfg st now key emb).memoryCache ∧
    ∀ k e2 ts, memLookup k (memPutStep cfg st now key emb).memoryCache = some (e2, ts) →
      memLookup k st.memoryCache = some (e2, ts) ∨ (k = key ∧ e2 = emb) := by
  unfold memPutStep
  split_ifs with hlt
  · constructor
    · exact memInsert_nodup key (emb, now) st.memoryCache hnodup
    · intro k e2 ts h
      have h2 : memLookup k (memInsert key (emb, now) st.memoryCache) = some (e2, ts) := h
      rw [memLookup_memInsert] at h2
      by_cases hke : key = k
      · rw [if_pos hke] at h2
        injection h2 with h3
        injection h3 with h4 h5
        exact Or.inr ⟨hke.symm, h4.symm⟩
      · rw [if_neg hke] at h2
        exact Or.inl h2
  · exact ⟨hnodup, fun k e2 ts h => Or.inl h⟩

theorem encode_image_result (env : BatchEnv) (cfg : CacheConfig)
    (st : CacheState) (d : String) (ck : Option String)
    (hRed : cfg.redisConfigured = false)
    (hcons : ∀ k, effectiveKey env cfg d ck = some k →
      ∀ emb ts, memLookup k st.memoryCache = some (emb, ts) →
        emb = env.oracleImage d) :
    (encode_image env cfg st d ck).1 = env.oracleImage d := by
  unfold encode_image
  cases hk : effectiveKey env cfg d ck with
  | none => rfl
  | some key =>
      dsimp only
      have hEn := effectiveKey_enabled env cfg d ck key hk
      have hg : getFromCache cfg st env.now (env.redisG key) key =
          memGetStep cfg st env.now key := by
        simp [getFromCache, getFromCacheBody, hEn, hRed]
      rw [hg]
      unfold memGetStep
      cases hm : memLookup key st.memoryCache with
      | none => rfl
      | some p =>
          rcases p with ⟨emb, ts⟩
          dsimp only
          by_cases hf : env.now - ts < cfg.cacheTtl
          · rw [if_pos hf]
            exact hcons key hk emb ts hm
          · rw [if_neg hf]

theorem encode_image_state (env : BatchEnv) (cfg : CacheConfig)
    (st : CacheState) (d : String) (ck : Option String)
    (hRed : cfg.redisConfigured = false) (hnodup : KeysNodup st.memoryCache) :
    KeysNodup (encode_image env cfg st d ck).2.memoryCache ∧
    ∀ k emb ts,
      memLookup k (encode_image env cfg st d ck).2.memoryCache = some (emb, ts) →
      (∃ ts2, memLookup k st.memoryCache = some (emb, ts2)) ∨
      (effectiveKey env cfg d ck = some k ∧ emb = env.oracleImage d) := by
  unfold encode_image
  cases hk : effectiveKey env cfg d ck with
  | none => exact ⟨hnodup, fun k emb ts h => Or.inl ⟨ts, h⟩⟩
  | some key =>
      dsimp only
      have hEn := effectiveKey_enabled env cfg d ck key hk
      have hg : getFromCache cfg st env.now (env.redisG key) key =
          memGetStep cfg st env.now key := by
        simp [getFromCache, getFromCacheBody, hEn, hRed]
      rw [hg]
      rcases memGetStep_lookup cfg st env.now key hnodup with ⟨hnd2, hlk2⟩
      cases hres : memGetStep cfg st env.now key with
      | mk ores st2 =>
          rw [hres] at hnd2 hlk2
          cases ores with
          | some cached =>
              dsimp only
              exact ⟨hnd2, fun k emb ts h => Or.inl ⟨ts, hlk2 k emb ts h⟩⟩
          | none =>
              dsimp only
              have hstore : (storeInCache cfg st2 env.now (env.redisP key) key
                  (env.oracleImage d)).1 =
                  memPutStep cfg st2 env.now key (env.oracleImage d) := by
                simp [storeInCache, storeInCacheBody, hEn, hRed]
              show KeysNodup (storeInCache cfg st2 env.now (env.redisP key) key
                  (env.oracleImage d)).1.memoryCache ∧ _
              rw [hstore]
              rcases memPutStep_lookup cfg st2 env.now key (env.oracleImage d)
                hnd2 with ⟨hnd3, hlk3⟩
              refine ⟨hnd3, ?_⟩
              intro k emb ts h
              rcases hlk3 k emb ts h with h2 | h2
              · exact Or.inl ⟨ts, hlk2 k emb ts h2⟩
              · rcases h2 with ⟨hkk, hemb⟩
                exact Or.inr ⟨by rw [hkk], hemb⟩

theorem batch_encode_image_maps (env : BatchEnv) (cfg : CacheConfig)
    (hRed : cfg.redisConfigured = false) :
    ∀ (items : List BItem) (st : CacheState), KeysNodup st.memoryCache →
      (∀ it ∈ items, ∀ k, effectiveKey env cfg it.imageContent it.itemKey = some k →
        ∀ emb ts, memLookup k st.memoryCache = some (emb, ts) →
          emb = env.oracleImage it.imageContent) →
      (∀ i1 ∈ items, ∀ i2 ∈ items,
        effectiveKey env cfg i1.imageContent i1.itemKey =
          effectiveKey env cfg i2.imageContent i2.itemKey →
        i1.imageContent = i2.imageContent) →
      (batch_encode_image env cfg st items).1 =
        items.map (fun it => env.oracleImage it.imageContent) := by
  intro items
  induction items with
  | nil =>
      intro st h1 h2 h3
      rfl
  | cons it rest ih =>
      intro st hnodup hcons hkeys
      have heq : (batch_encode_image env cfg st (it :: rest)).1 =
          (encode_image env cfg st it.imageContent it.itemKey).1 ::
          (batch_encode_image env cfg
            (encode_image env cfg st it.imageContent it.itemKey).2 rest).1 := rfl
      rw [heq, List.map_cons]
      rcases encode_image_state env cfg st it.imageContent it.itemKey hRed hnodup
        with ⟨hnd2, hlk2⟩
      congr 1
      · exact encode_image_result env cfg st it.imageContent it.itemKey hRed
          (fun k hk emb ts hm => hcons it (by simp) k hk emb ts hm)
      · refine ih (encode_image env cfg st it.imageContent it.itemKey).2 hnd2 ?_ ?_
        · intro it2 hit2 k hk emb ts hm
          rcases hlk2 k emb ts hm with ⟨ts2, hm2⟩ | ⟨hk2, hemb⟩
          · exact hcons it2 (by simp [hit2]) k hk emb ts2 hm2
          · have hcc : it2.imageContent = it.imageContent :=
              hkeys it2 (by simp [hit2]) it (by simp) (by rw [hk, hk2])
            rw [hemb, hcc]
        · intro i1 h1 i2 h2 hkk
          exact hkeys i1 (by simp [h1]) i2 (by simp [h2]) hkk

/-- C9: assuming the Embedding Oracle returns one embedding per input in
input order, `batch_encode` returns a sequence in which output index `i` is
the embedding of input item `i`: a "text" batch is one batched Oracle call
with no cache interaction, and an "image" batch is the sequential per-item
cache-lookup / Oracle-call / cache-store loop accumulating results in input
order (stated from an initially empty fast tier, with no durable tier
configured, and with batch cache keys that do not alias distinct image
contents). -/
theorem batch_encode_order (env : BatchEnv)
    (oracleText : List String → List (List ℕ)) (oracleT : String → List ℕ)
    (cfg : CacheConfig) (items : List BItem)
    (hText : ∀ ts : List String, oracleText ts = ts.map oracleT)
    (hRed : cfg.redisConfigured = false)
    (hkeys : ∀ i1 ∈ items, ∀ i2 ∈ items,
      effectiveKey env cfg i1.imageContent i1.itemKey =
        effectiveKey env cfg i2.imageContent i2.itemKey →
      i1.imageContent = i2.imageContent) :
    batch_encode env oracleText cfg ⟨[]⟩ items "text" =
      Except.ok (items.map (fun it => oracleT it.textContent), (⟨[]⟩ : CacheState)) ∧
    (batch_encode_image env cfg ⟨[]⟩ items).1 =
      items.map (fun it => env.oracleImage it.imageContent) ∧
    batch_encode env oracleText cfg ⟨[]⟩ items "image" =
      Except.ok (batch_encode_image env cfg ⟨[]⟩ items) := by
  refine ⟨?_, ?_, ?_⟩
  · rw [batch_encode, if_pos rfl, hText, List.map_map]
    rfl
  · exact batch_encode_image_maps env cfg hRed items ⟨[]⟩ List.Pairwise.nil
      (fun it hit k hk emb ts hm => by simp [memLookup] at hm) hkeys
  · rw [batch_encode, if_neg (by decide), if_pos rfl]

/-- Witness for C9 on a two-item image batch with derived, non-aliasing
keys: the outputs are the per-item Oracle embeddings in input order. -/
theorem batch_encode_order_witness :
    (batch_encode_image
      { oracleImage := fun s => [s.length], md5hex := fun s => s, now := 0,
        redisG := fun _ => RedisResp.ok none, redisP := fun _ => RedisWResp.ok }
      ⟨true, false, 10, 5⟩ ⟨[]⟩ [BItem.plain "a", BItem.plain "bb"]).1 =
      [BItem.plain "a", BItem.plain "bb"].map
        (fun it => [it.imageContent.length]) :=
  (batch_encode_order
    { oracleImage := fun s => [s.length], md5hex := fun s => s, now := 0,
      redisG := fun _ => RedisResp.ok none, redisP := fun _ => RedisWResp.ok }
    (fun ts => ts.map (fun s => [s.length])) (fun s => [s.length])
    ⟨true, false, 10, 5⟩ [BItem.plain "a", BItem.plain "bb"]
    (fun _ => rfl) rfl
    (by intro i1 h1 i2 h2 h
        fin_cases h1 <;> fin_cases h2 <;> simp_all [effectiveKey, BItem.imageContent,
          BItem.itemKey])).2.1
